import Mathlib

/-!
Verification of the snivy trading-engine core against its specification.

The Rust source is shallowly embedded: `f64` prices and sizes become `ℚ`,
`Instant` timestamps become `ℚ`, `DashMap<String, Position>` becomes an
association list `List Position`, and the stateful methods become pure
state-passing functions.  Each definition is a direct translation of the
corresponding function in the repository (file and function named in the
doc comments).
-/

/-- Order side, from `src/exchange/order_router.rs` (`OrderSide`). -/
inductive OrderSide
  | Buy
  | Sell
deriving DecidableEq, Repr

/-- Strategy signal, from `src/strategies/ma_crossover/mod.rs` (`SignalSide`). -/
inductive SignalSide
  | Long
  | Short
  | Flat
deriving DecidableEq, Repr

/-- Model of `Position` from `src/exchange/position_manager.rs`. -/
structure Position where
  asset : String
  size : ℚ
  entry_price : ℚ
deriving DecidableEq, Repr

/-- Model of `FillEvent` from `src/exchange/position_manager.rs` (the optional
client order id plays no role in any modelled function and is omitted). -/
structure FillEvent where
  asset : String
  price : ℚ
  size : ℚ
  is_buy : Bool
deriving DecidableEq, Repr

/-- The signed size contributed by one fill: `+size` for a buy, `-size`
for a sell (the sign convention of `PositionManager::apply_fill`). -/
def fillSigned (fill : FillEvent) : ℚ :=
  if fill.is_buy then fill.size else -fill.size

/-- The `and_modify` closure of `PositionManager::apply_fill`
(`src/exchange/position_manager.rs`, lines 41-48): a buy adds to the
size and overwrites the entry price, a sell subtracts from the size and
leaves the entry price alone. -/
def modifyPosition (fill : FillEvent) (position : Position) : Position :=
  if fill.is_buy then
    { position with size := position.size + fill.size, entry_price := fill.price }
  else
    { position with size := position.size - fill.size }

/-- Model of `PositionManager::apply_fill` (`src/exchange/position_manager.rs`,
lines 37-54).  The `DashMap` is modelled as an association list: an
existing entry for the fill's asset is modified in place
(`entry().and_modify(...)`), otherwise a fresh entry is inserted
(`or_insert`). -/
def applyFill (pm : List Position) (fill : FillEvent) : List Position :=
  if pm.any (fun p => p.asset == fill.asset) then
    pm.map (fun p => if p.asset == fill.asset then modifyPosition fill p else p)
  else
    pm ++ [{ asset := fill.asset, size := fillSigned fill, entry_price := fill.price }]

/-- Model of `MaCrossoverStrategy::net_position` (`src/strategies/ma_crossover/mod.rs`,
lines 287-293): the size of the first position entry for the asset, or 0. -/
def netPosition (pm : List Position) (asset : String) : ℚ :=
  match pm.find? (fun p => p.asset == asset) with
  | some p => p.size
  | none => 0

/-- Signed sum of the fills for one asset: each fill counted `+size` when a
buy and `-size` when a sell. -/
def signedFillSum (a : String) (fills : List FillEvent) : ℚ :=
  ((fills.filter (fun f => f.asset == a)).map fillSigned).sum

/-- Model of `simple_moving_average` from `src/utils/math.rs` (lines 1-7). -/
def simple_moving_average (window : List ℚ) : Option ℚ :=
  if window.isEmpty then none
  else some (window.sum / (window.length : ℚ))

/-- Model of `MovingAverage` from `src/marketdata/indicators.rs`: the `VecDeque`
window becomes a list (front = oldest). -/
structure MovingAverage where
  window : List ℚ
  period : ℕ
deriving DecidableEq, Repr

/-- Model of `MovingAverage::new`. -/
def MovingAverage.new (period : ℕ) : MovingAverage := ⟨[], period⟩

/-- Model of `MovingAverage::seed`: clear the window, then push the supplied values
truncated to the first `period` of them. -/
def MovingAverage.seed (ma : MovingAverage) (values : List ℚ) : MovingAverage :=
  ⟨values.take ma.period, ma.period⟩

/-- Model of `MovingAverage::update` (lines 26-36): push the value, pop the front if
the window exceeds the period, and return the mean exactly when the window
length equals the period. -/
def MovingAverage.update (ma : MovingAverage) (value : ℚ) : MovingAverage × Option ℚ :=
  let w1 := ma.window ++ [value]
  let w2 := if ma.period < w1.length then w1.tail else w1
  (⟨w2, ma.period⟩,
    if w2.length = ma.period then simple_moving_average w2 else none)

/-- Model of `MovingAverage::values`. -/
def MovingAverage.values (ma : MovingAverage) : List ℚ := ma.window

/-- Model of `MovingAverage::is_ready`. -/
def MovingAverage.is_ready (ma : MovingAverage) : Bool :=
  ma.window.length == ma.period

/-- Repeated `update` calls, keeping only the evolving indicator state. -/
def runUpdates (ma : MovingAverage) (vs : List ℚ) : MovingAverage :=
  vs.foldl (fun m v => (m.update v).1) ma

/-- The last `n` elements of a list. -/
def lastN (n : ℕ) (l : List ℚ) : List ℚ := l.drop (l.length - n)

/-- Rust's `Instant::duration_since`, which saturates at zero when the
argument is later than `self`. -/
def durationSince (now ts : ℚ) : ℚ := max (now - ts) 0

/-- Model of `OrderRateLimiter` from `src/strategies/ma_crossover/mod.rs`
(lines 347-360): the `VecDeque` of recorded `Instant`s becomes a list of
rational timestamps (front = oldest), the `Duration` window a rational. -/
structure OrderRateLimiter where
  max_per_minute : ℕ
  timestamps : List ℚ
  window : ℚ
deriving DecidableEq, Repr

/-- Model of `OrderRateLimiter::new`. -/
def OrderRateLimiter.new (window_seconds : ℕ) (maxPerMinute : ℕ) : OrderRateLimiter :=
  ⟨maxPerMinute, [], (window_seconds : ℚ)⟩

/-- Model of `OrderRateLimiter::allow` (lines 362-378): pop stale timestamps from the
front while the front is older than the window, then grant and record the
current timestamp only if the remaining count is below the maximum. -/
def OrderRateLimiter.allow (rl : OrderRateLimiter) (now : ℚ) : OrderRateLimiter × Bool :=
  let kept := rl.timestamps.dropWhile (fun ts => rl.window < durationSince now ts)
  if rl.max_per_minute ≤ kept.length then
    (⟨rl.max_per_minute, kept, rl.window⟩, false)
  else
    (⟨rl.max_per_minute, kept ++ [now], rl.window⟩, true)

/-- The strategy parameters used by `MaCrossoverStrategy::evaluate`
(`MaCrossoverParams`, trade size and bootstrap fields omitted as they do
not affect the modelled decision logic beyond being copied into intents). -/
structure MaParams where
  asset : String
  short_window : ℕ
  long_window : ℕ
  slippage_bps : ℕ
  max_position : ℚ
  max_order_rate_per_min : ℕ
deriving DecidableEq, Repr

/-- Model of `OrderIntent` from `src/exchange/order_router.rs`, restricted to the
fields the strategy computes per-event (asset, side, limit price, reduce
only; `size`/`tif`/`client_tag` are constants or formatting). -/
structure OrderIntent where
  asset : String
  side : OrderSide
  limit_px : ℚ
  reduce_only : Bool
deriving DecidableEq, Repr

/-- The mutable state of `MaCrossoverStrategy` relevant to `evaluate`:
both indicators, the last acted-upon signal and the rate limiter. -/
structure MaState where
  short_ma : MovingAverage
  long_ma : MovingAverage
  last_signal : SignalSide
  rate_limiter : OrderRateLimiter
deriving DecidableEq, Repr

/-- The target-signal computation inside `MaCrossoverStrategy::evaluate`
(lines 219-225): `Long` if short > long, `Short` if short < long, else
`Flat`. -/
def targetSignal (short long : ℚ) : SignalSide :=
  if long < short then SignalSide.Long
  else if short < long then SignalSide.Short
  else SignalSide.Flat

/-- The reduce-only computation (lines 242-245): a Buy is reduce-only when
net < 0, a Sell when net > 0. -/
def reduce_only_for (side : OrderSide) (net : ℚ) : Bool :=
  match side with
  | OrderSide.Buy => decide (net < 0)
  | OrderSide.Sell => decide (0 < net)

/-- Model of `MaCrossoverStrategy::within_limits` (lines 267-276). -/
def within_limits (max_position net : ℚ) (side : OrderSide) (ro : Bool) : Bool :=
  if ro then true
  else
    match side with
    | OrderSide.Buy => decide (net < max_position)
    | OrderSide.Sell => decide (-max_position < net)

/-- Model of `MaCrossoverStrategy::limit_price` (lines 278-285), without the final
decimal-string formatting (`format_decimal`) which does not affect the
decision logic. -/
def limit_price (slippage_bps : ℕ) (price : ℚ) (side : OrderSide) : ℚ :=
  let bps : ℚ := (slippage_bps : ℚ) / 10000
  match side with
  | OrderSide.Buy => price * (1 + bps)
  | OrderSide.Sell => price * (1 - bps)

/-- Model of `MaCrossoverStrategy::evaluate` (lines 205-265), with the ledger read
(`net_position`) and the clock (`Instant::now`) passed as arguments.  Note
the source's control flow: the long indicator is updated only if the short
indicator produced a mean; the rate limiter is consulted (and mutated)
before the position-cap check; `last_signal` is set only when an intent is
emitted. -/
def evaluate (p : MaParams) (s : MaState) (price net now : ℚ) :
    MaState × Option OrderIntent :=
  match s.short_ma.update price with
  | (shortMa, none) => ({ s with short_ma := shortMa }, none)
  | (shortMa, some short) =>
    match s.long_ma.update price with
    | (longMa, none) => ({ s with short_ma := shortMa, long_ma := longMa }, none)
    | (longMa, some long) =>
      let s1 : MaState := { s with short_ma := shortMa, long_ma := longMa }
      let target := targetSignal short long
      if target = s.last_signal ∨ target = SignalSide.Flat then (s1, none)
      else
        match s.rate_limiter.allow now with
        | (rl, false) => ({ s1 with rate_limiter := rl }, none)
        | (rl, true) =>
          let s2 : MaState := { s1 with rate_limiter := rl }
          let side := if target = SignalSide.Long then OrderSide.Buy else OrderSide.Sell
          let ro := reduce_only_for side net
          if within_limits p.max_position net side ro = false then (s2, none)
          else
            ({ s2 with last_signal := target },
              some ⟨p.asset, side, limit_price p.slippage_bps price side, ro⟩)

/-- Model of `MaCrossoverSnapshot` from `src/strategies/ma_crossover/mod.rs`
(lines 61-66). -/
structure MaCrossoverSnapshot where
  short_values : List ℚ
  long_values : List ℚ
  last_signal : SignalSide
deriving DecidableEq, Repr

/-- Model of `MaCrossoverStrategy::build_snapshot` (lines 331-338). -/
def build_snapshot (s : MaState) : MaCrossoverSnapshot :=
  ⟨s.short_ma.values, s.long_ma.values, s.last_signal⟩

/-- The state constructed by `MaCrossoverBuilder::build` (lines 103-114)
before any snapshot is loaded: empty indicator windows, `Flat` signal, and
a rate limiter `OrderRateLimiter::new(60, max_order_rate_per_min.max(1))`. -/
def freshState (p : MaParams) : MaState :=
  ⟨MovingAverage.new p.short_window, MovingAverage.new p.long_window, SignalSide.Flat,
    OrderRateLimiter.new 60 (max p.max_order_rate_per_min 1)⟩

/-- Model of `MaCrossoverStrategy::restore_from_snapshot` (lines 325-329): seed both
indicators from the stored windows and restore the last signal (the rate
limiter is untouched). -/
def restore_from_snapshot (s : MaState) (snap : MaCrossoverSnapshot) : MaState :=
  { s with
    short_ma := s.short_ma.seed snap.short_values,
    long_ma := s.long_ma.seed snap.long_values,
    last_signal := snap.last_signal }

/-- A freshly built strategy that loads the snapshot at construction
(`MaCrossoverBuilder::build` + `load_from_snapshot`, lines 313-323). -/
def loadFresh (p : MaParams) (snap : MaCrossoverSnapshot) : MaState :=
  restore_from_snapshot (freshState p) snap

/-- The net-to-signal classification of
`MaCrossoverStrategy::sync_signal_from_positions` (lines 295-304). -/
def signalFromNet (net : ℚ) : SignalSide :=
  if 0 < net then SignalSide.Long
  else if net < 0 then SignalSide.Short
  else SignalSide.Flat

/-- Model of `MaCrossoverStrategy::sync_signal_from_positions` (lines 295-304). -/
def sync_signal_from_positions (s : MaState) (pm : List Position) (asset : String) : MaState :=
  { s with last_signal := signalFromNet (netPosition pm asset) }

/-- Model of `Engine::handle_fill` (`src/engine/runner.rs`, lines 85-97) composed
with the strategy's `on_fill` (lines 153-162): the fill is applied to the
position ledger first, then the strategy resynchronizes its signal from the
post-fill ledger snapshot. -/
def engineHandleFill (pm : List Position) (s : MaState) (asset : String) (fill : FillEvent) :
    List Position × MaState :=
  let pm2 := applyFill pm fill
  (pm2, sync_signal_from_positions s pm2 asset)

/-- Fold `evaluate` over a list of market events, each given as
(price, net position read from the ledger, clock time), collecting the
emitted intents in order. -/
def evalTrace (p : MaParams) (s : MaState) (events : List (ℚ × ℚ × ℚ)) :
    MaState × List (Option OrderIntent) :=
  events.foldl (fun acc e =>
    ((evaluate p acc.1 e.1 e.2.1 e.2.2).1,
      acc.2 ++ [(evaluate p acc.1 e.1 e.2.1 e.2.2).2])) (s, [])

/-- Model of `RiskLimits` from `src/engine/risk.rs`. -/
structure RiskLimits where
  max_position : ℚ
deriving DecidableEq, Repr

/-- Model of `RiskLimits::allow` (`src/engine/risk.rs`, lines 8-12): ignores the
intent entirely and returns `true`. -/
def RiskLimits.allow (_ : RiskLimits) (_ : OrderIntent) : Bool := true

/-- One step of repeated calls to `allow`: advance the limiter and append
the call time to the admitted list when the permit is granted. -/
def rlStep (acc : OrderRateLimiter × List ℚ) (c : ℚ) : OrderRateLimiter × List ℚ :=
  ((acc.1.allow c).1, if (acc.1.allow c).2 then acc.2 ++ [c] else acc.2)

/-- Repeated calls to `allow` at the given times, collecting the admitted
call times. -/
def runLimiter (rl : OrderRateLimiter) (calls : List ℚ) : OrderRateLimiter × List ℚ :=
  calls.foldl rlStep (rl, [])

/-- Abstract outcome of one handler invocation inside the run loop:
success, an error propagated from the strategy handler (`on_event` /
`on_fill` — e.g. a bootstrap fetch or snapshot persistence failure), or an
error returned by intent submission (`ctx.submit_intent`). -/
inductive HandlerOutcome
  | ok
  | strategyErr
  | submitErr
deriving DecidableEq, Repr

/-- One iteration's input to the select loop of `Engine::run`
(`src/engine/runner.rs`, lines 41-61): a market event whose handling
produced the given outcome, a market-stream lag signal, market-stream
closure, a fill event with its handling outcome, or fill-channel closure. -/
inductive StepInput
  | market (o : HandlerOutcome)
  | marketLagged
  | marketClosed
  | fill (o : HandlerOutcome)
  | fillClosed
deriving DecidableEq, Repr

/-- The control-flow effect of one loop iteration. -/
inductive StepResult
  | next (fillsOpen : Bool)
  | stopOk
  | stopErr
deriving DecidableEq, Repr

/-- One iteration of `Engine::run` (`src/engine/runner.rs`, lines 41-61,
with `handle_market_event` lines 65-83 and `handle_fill` lines 85-97):
market-event handling propagates strategy and submission errors via `?`;
a lag signal logs and continues; market closure (`RecvError::Closed`)
breaks the loop cleanly; fill handling propagates errors; fill-channel
closure (`recv` returning `None`) sets `self.fills = None`, dropping the
fill arm from the select for the remainder of the run and continuing. -/
def engineStep (fillsOpen : Bool) : StepInput → StepResult
  | StepInput.market HandlerOutcome.ok => StepResult.next fillsOpen
  | StepInput.market HandlerOutcome.strategyErr => StepResult.stopErr
  | StepInput.market HandlerOutcome.submitErr => StepResult.stopErr
  | StepInput.marketLagged => StepResult.next fillsOpen
  | StepInput.marketClosed => StepResult.stopOk
  | StepInput.fill HandlerOutcome.ok => StepResult.next fillsOpen
  | StepInput.fill HandlerOutcome.strategyErr => StepResult.stopErr
  | StepInput.fill HandlerOutcome.submitErr => StepResult.stopErr
  | StepInput.fillClosed => StepResult.next false

/-- Overall outcome of the loop on a trace of iteration inputs: `ok`
(market stream closed, `run` returns Ok), `err` (a handler error
propagated), or still `running` with the given fill-arm state when the
trace is exhausted. -/
inductive RunOutcome
  | ok
  | err
  | running (fillsOpen : Bool)
deriving DecidableEq, Repr

/-- Model of `Engine::run` as iterated `engineStep` over the input trace. -/
def engineRun (fillsOpen : Bool) : List StepInput → RunOutcome
  | [] => RunOutcome.running fillsOpen
  | i :: rest =>
    match engineStep fillsOpen i with
    | StepResult.next b => engineRun b rest
    | StepResult.stopOk => RunOutcome.ok
    | StepResult.stopErr => RunOutcome.err

/-- The inputs on which one iteration stops the loop. -/
def isTerminating (i : StepInput) : Bool :=
  match i with
  | StepInput.market HandlerOutcome.ok => false
  | StepInput.market _ => true
  | StepInput.marketLagged => false
  | StepInput.marketClosed => true
  | StepInput.fill HandlerOutcome.ok => false
  | StepInput.fill _ => true
  | StepInput.fillClosed => false

theorem find?_map_preserving (h : Position → Position) (a : String)
    (hg : ∀ p, (h p).asset = p.asset) (pm : List Position) :
    (pm.map h).find? (fun p => p.asset == a) = (pm.find? (fun p => p.asset == a)).map h := by
  induction pm with
  | nil => rfl
  | cons q rest ih =>
    rw [List.map_cons]
    by_cases hq : (q.asset == a) = true
    · have h2 : ((h q).asset == a) = true := by rw [hg]; exact hq
      simp only [List.find?_cons, h2, hq, Option.map_some']
    · have hqf : (q.asset == a) = false := by simpa using hq
      have h2 : ((h q).asset == a) = false := by rw [hg]; exact hqf
      simp only [List.find?_cons, h2, hqf, ih]

theorem netPosition_applyFill (pm : List Position) (fill : FillEvent) (a : String) :
    netPosition (applyFill pm fill) a
      = netPosition pm a + (if fill.asset = a then fillSigned fill else 0) := by
  have hpres : ∀ p : Position,
      ((if p.asset == fill.asset then modifyPosition fill p else p)).asset = p.asset := by
    intro p
    by_cases hp : (p.asset == fill.asset) = true
    · rw [if_pos hp]
      unfold modifyPosition
      by_cases hb : fill.is_buy <;> simp [hb]
    · rw [if_neg hp]
  unfold applyFill
  by_cases hany : (pm.any fun p => p.asset == fill.asset) = true
  · rw [if_pos hany]
    unfold netPosition
    rw [find?_map_preserving _ a hpres pm]
    rcases hfind : pm.find? (fun p => p.asset == a) with _ | q
    · rw [hfind]
      by_cases ha : fill.asset = a
      · exfalso
        subst ha
        rw [List.any_eq_true] at hany
        obtain ⟨x, hx, hpx⟩ := hany
        exact (List.find?_eq_none.mp hfind x hx) hpx
      · simp [ha]
    · rw [hfind]
      have hqa : q.asset = a := by
        have := List.find?_some hfind
        simpa using this
      by_cases ha : fill.asset = a
      · subst ha
        have hqf : (q.asset == fill.asset) = true := by simp [hqa]
        simp only [Option.map_some']
        rw [if_pos hqf]
        unfold modifyPosition fillSigned
        by_cases hb : fill.is_buy
        · simp [hb]
        · simp [hb]
          ring
      · have hne : ¬ q.asset = fill.asset := by
          rw [hqa]
          intro hc
          exact ha hc.symm
        simp [hne, ha]
  · rw [if_neg hany]
    unfold netPosition
    rw [List.find?_append]
    rcases hfind : pm.find? (fun p => p.asset == a) with _ | q
    · rw [hfind]
      by_cases ha : fill.asset = a
      · subst ha
        simp [fillSigned]
      · simp [ha]
    · rw [hfind]
      have hqa : q.asset = a := by
        have := List.find?_some hfind
        simpa using this
      by_cases ha : fill.asset = a
      · exfalso
        subst ha
        exact hany (List.any_eq_true.mpr
          ⟨q, List.mem_of_find?_eq_some hfind, by simp [hqa]⟩)
      · simp [ha]

theorem netPosition_foldl (fills : List FillEvent) (pm : List Position) (a : String) :
    netPosition (fills.foldl applyFill pm) a = netPosition pm a + signedFillSum a fills := by
  induction fills generalizing pm with
  | nil => simp [signedFillSum]
  | cons f rest ih =>
    rw [List.foldl_cons, ih, netPosition_applyFill]
    unfold signedFillSum
    by_cases ha : f.asset = a
    · have hb : (f.asset == a) = true := by simp [ha]
      rw [List.filter_cons, if_pos hb, List.map_cons, List.sum_cons, if_pos ha]
      ring
    · have hb : (f.asset == a) = false := by simp [ha]
      simp [List.filter_cons, hb, ha]

/-- C8: for every sequence of fills applied to an initially empty ledger,
possibly interleaved with fills on other instruments, each instrument's net
size equals the signed sum of the sizes of the fills applied for that
instrument (positive for a buy, negative for a sell). -/
theorem C8_net_equals_signed_sum (fills : List FillEvent) (a : String) :
    netPosition (fills.foldl applyFill []) a = signedFillSum a fills := by
  rw [netPosition_foldl]
  simp [netPosition]

/-- C1 counterexample: the ledger holds a short position (net −1) in `"BTC"`
with entry price 100.  A sell fill (price 50, size 1) matches the direction
of the net position, and the magnitude indeed grows from 1 to 2, but
`apply_fill` does NOT overwrite the entry price with the fill's price
(it stays 100, not 50), contradicting the claim that a direction-matching
fill always overwrites `entryPrice`. -/
theorem C1_counterexample :
    netPosition [⟨"BTC", -1, 100⟩] "BTC" < 0 ∧
    (⟨"BTC", 50, 1, false⟩ : FillEvent).is_buy = false ∧
    netPosition (applyFill [⟨"BTC", -1, 100⟩] ⟨"BTC", 50, 1, false⟩) "BTC" = -2 ∧
    ((applyFill [⟨"BTC", -1, 100⟩] ⟨"BTC", 50, 1, false⟩).find?
        (fun p => p.asset == "BTC")).map Position.entry_price = some 100 ∧
    (100 : ℚ) ≠ 50 := by
  refine ⟨?_, rfl, ?_, ?_, by norm_num⟩ <;>
    norm_num [netPosition, applyFill, modifyPosition, fillSigned, List.find?]

/-- C1 (amended): for a fill applied to an instrument that already has an
entry, a Buy fill adds `fill.size` to the signed size and overwrites
`entryPrice` with `fill.price`, while a Sell fill subtracts `fill.size` and
leaves `entryPrice` unchanged — regardless of the sign of the current net
position.  Consequently a direction-matching fill of positive size always
increases the magnitude, but `entryPrice` is overwritten exactly for Buys
(long positions), not for direction-matching Sells on short positions. -/
theorem C1_apply_fill_existing_entry (pm : List Position) (fill : FillEvent) (q : Position)
    (hfind : pm.find? (fun p => p.asset == fill.asset) = some q) :
    ∃ q', (applyFill pm fill).find? (fun p => p.asset == fill.asset) = some q' ∧
      (fill.is_buy = true → q'.size = q.size + fill.size ∧ q'.entry_price = fill.price) ∧
      (fill.is_buy = false → q'.size = q.size - fill.size ∧ q'.entry_price = q.entry_price) ∧
      ((fill.is_buy = true ∧ 0 < q.size) ∨ (fill.is_buy = false ∧ q.size < 0) →
        0 < fill.size → |q.size| < |q'.size|) := by
  have heq : q.asset = fill.asset := by
    have := List.find?_some hfind
    simpa using this
  have hq : (q.asset == fill.asset) = true := by simp [heq]
  have hany : (pm.any fun p => p.asset == fill.asset) = true :=
    List.any_eq_true.mpr ⟨q, List.mem_of_find?_eq_some hfind, hq⟩
  have hpres : ∀ p : Position,
      ((if p.asset == fill.asset then modifyPosition fill p else p)).asset = p.asset := by
    intro p
    by_cases hp : (p.asset == fill.asset) = true
    · rw [if_pos hp]
      unfold modifyPosition
      by_cases hb : fill.is_buy <;> simp [hb]
    · rw [if_neg hp]
  refine ⟨modifyPosition fill q, ?_, ?_, ?_, ?_⟩
  · unfold applyFill
    rw [if_pos hany, find?_map_preserving _ fill.asset hpres pm, hfind,
      Option.map_some', if_pos hq]
  · intro hb
    unfold modifyPosition
    simp [hb]
  · intro hb
    unfold modifyPosition
    simp [hb]
  · rintro (⟨hb, hpos⟩ | ⟨hb, hneg⟩) hs
    · unfold modifyPosition
      simp only [hb, if_true]
      rw [abs_of_pos hpos, abs_of_pos (by linarith)]
      linarith
    · unfold modifyPosition
      simp only [hb, Bool.false_eq_true, if_false]
      rw [abs_of_neg hneg, abs_of_neg (by linarith)]
      linarith

/-- Witness for C1 (amended) at a concrete input: a long entry of size 2 at
entry price 10, hit by a buy fill of size 1 at price 11. -/
theorem C1_apply_fill_existing_entry_witness :
    ([(⟨"BTC", 2, 10⟩ : Position)].find? (fun p => p.asset == "BTC")
        = some (⟨"BTC", 2, 10⟩ : Position)) ∧
    (∃ q', (applyFill [⟨"BTC", 2, 10⟩] ⟨"BTC", 11, 1, true⟩).find?
          (fun p => p.asset == "BTC") = some q' ∧
      (true = true → q'.size = 2 + 1 ∧ q'.entry_price = 11) ∧
      (true = false → q'.size = 2 - 1 ∧ q'.entry_price = 10) ∧
      ((true = true ∧ (0 : ℚ) < 2) ∨ (true = false ∧ (2 : ℚ) < 0) →
        (0 : ℚ) < 1 → |(2 : ℚ)| < |q'.size|)) :=
  ⟨rfl, C1_apply_fill_existing_entry [⟨"BTC", 2, 10⟩] ⟨"BTC", 11, 1, true⟩
    ⟨"BTC", 2, 10⟩ rfl⟩

theorem update_fst (w : List ℚ) (N : ℕ) (v : ℚ) (hw : w.length ≤ N) :
    (MovingAverage.update ⟨w, N⟩ v).1 = ⟨(w ++ [v]).drop (w.length + 1 - N), N⟩ := by
  unfold MovingAverage.update
  simp only [List.length_append, List.length_cons, List.length_nil]
  by_cases hlt : N < w.length + 1
  · have hN : w.length = N := by omega
    have hd : w.length + 1 - N = 1 := by omega
    rw [if_pos (by simpa using hlt), hd, ← List.drop_one]
  · have hd : w.length + 1 - N = 0 := by omega
    rw [if_neg (by simpa using hlt), hd, List.drop_zero]

theorem runUpdates_mk (N : ℕ) (vs : List ℚ) :
    ∀ w : List ℚ, w.length ≤ N →
      runUpdates ⟨w, N⟩ vs = ⟨(w ++ vs).drop (w.length + vs.length - N), N⟩ := by
  induction vs with
  | nil =>
    intro w hw
    have h0 : w.length - N = 0 := by omega
    simp [runUpdates, h0]
  | cons v rest ih =>
    intro w hw
    have hstep : (MovingAverage.update ⟨w, N⟩ v).1
        = ⟨(w ++ [v]).drop (w.length + 1 - N), N⟩ := update_fst w N v hw
    have hlen : ((w ++ [v]).drop (w.length + 1 - N)).length ≤ N := by
      rw [List.length_drop, List.length_append]
      simp only [List.length_cons, List.length_nil]
      omega
    have hrec := ih ((w ++ [v]).drop (w.length + 1 - N)) hlen
    have hfold : runUpdates ⟨w, N⟩ (v :: rest)
        = runUpdates ((MovingAverage.update ⟨w, N⟩ v).1) rest := by
      simp [runUpdates]
    rw [hfold, hstep, hrec]
    have hsub : w.length + 1 - N ≤ (w ++ [v]).length := by
      simp only [List.length_append, List.length_cons, List.length_nil]
      omega
    have happ : ((w ++ [v]) ++ rest).drop (w.length + 1 - N)
        = (w ++ [v]).drop (w.length + 1 - N) ++ rest :=
      List.drop_append_of_le_length hsub
    have hlen2 : ((w ++ [v]).drop (w.length + 1 - N)).length
        = w.length + 1 - (w.length + 1 - N) := by
      simp only [List.length_drop, List.length_append, List.length_cons, List.length_nil]
    rw [← happ, List.drop_drop, hlen2]
    have hassoc : (w ++ [v]) ++ rest = w ++ (v :: rest) := by
      rw [List.append_assoc, List.singleton_append]
    rw [hassoc]
    have hidx : w.length + 1 - N + (w.length + 1 - (w.length + 1 - N) + rest.length - N)
        = w.length + (v :: rest).length - N := by
      simp only [List.length_cons]
      omega
    rw [hidx]

theorem runUpdates_append_single (ma : MovingAverage) (xs : List ℚ) (x : ℚ) :
    runUpdates ma (xs ++ [x]) = ((runUpdates ma xs).update x).1 := by
  simp [runUpdates, List.foldl_append]

theorem update_snd (ma : MovingAverage) (v : ℚ) :
    (ma.update v).2 = if (ma.update v).1.window.length = ma.period then
      simple_moving_average (ma.update v).1.window else none := rfl

theorem update_after_run (N : ℕ) (hN : 1 ≤ N) (w0 : List ℚ) (hw0 : w0.length ≤ N)
    (vs : List ℚ) (v : ℚ) :
    ((runUpdates ⟨w0, N⟩ vs).update v).2
      = if N ≤ w0.length + vs.length + 1 then
          some ((lastN N (w0 ++ vs ++ [v])).sum / (N : ℚ)) else none := by
  have hfst : ((runUpdates ⟨w0, N⟩ vs).update v).1
      = ⟨(w0 ++ (vs ++ [v])).drop (w0.length + (vs ++ [v]).length - N), N⟩ := by
    rw [← runUpdates_append_single]
    exact runUpdates_mk N (vs ++ [v]) w0 hw0
  have hper : (runUpdates ⟨w0, N⟩ vs).period = N := by
    rw [runUpdates_mk N vs w0 hw0]
  have hLlen : (w0 ++ (vs ++ [v])).length = w0.length + vs.length + 1 := by
    simp only [List.length_append, List.length_cons, List.length_nil]
    omega
  have hD : w0.length + (vs ++ [v]).length - N
      = (w0 ++ (vs ++ [v])).length - N := by
    simp only [List.length_append, List.length_cons, List.length_nil]
  rw [update_snd, hfst, hper]
  simp only
  by_cases hcase : N ≤ w0.length + vs.length + 1
  · have hw2len : ((w0 ++ (vs ++ [v])).drop
        (w0.length + (vs ++ [v]).length - N)).length = N := by
      rw [List.length_drop, hLlen]
      simp only [List.length_append, List.length_cons, List.length_nil]
      omega
    rw [if_pos hw2len, if_pos hcase]
    unfold simple_moving_average
    have hnonempty : ¬ (((w0 ++ (vs ++ [v])).drop
        (w0.length + (vs ++ [v]).length - N)).isEmpty = true) := by
      rw [List.isEmpty_iff_length_eq_zero, hw2len]
      omega
    rw [if_neg hnonempty]
    unfold lastN
    rw [hw2len, hD, List.append_assoc]
  · have hw2len : ((w0 ++ (vs ++ [v])).drop
        (w0.length + (vs ++ [v]).length - N)).length ≠ N := by
      rw [List.length_drop, hLlen]
      simp only [List.length_append, List.length_cons, List.length_nil]
      omega
    rw [if_neg hw2len, if_neg hcase]

/-- C2 counterexample: with period `N = 3`, `seed([1,2,3])` fills the window,
and the very next `update(4)` returns `Some 3` even though only one
observation has been pushed since the seed — `update` does not wait for `N`
pushes after a seed, refuting the claimed iff. -/
theorem C2_counterexample :
    (((MovingAverage.new 3).seed [1, 2, 3]).update 4).2 = some 3 ∧ ¬ (3 ≤ 1) := by
  constructor
  · norm_num [MovingAverage.new, MovingAverage.seed, MovingAverage.update,
      simple_moving_average, List.take]
  · omega

/-- C2 (amended): for a moving average with period `N ≥ 1`: with no seed,
`update` returns a value iff at least `N` observations have been pushed
since construction, and any value returned is the arithmetic mean of
exactly the last `N` pushed observations; under-filled windows yield
`none`.  A `seed`, however, pre-loads `min N k` observations (`k` the seed
length) that count toward window fullness, so after a seed the iff is
`N ≤ min N k + (pushes since the seed)`, not `N ≤ pushes since the seed`. -/
theorem C2_update_contract (N : ℕ) (hN : 1 ≤ N) (xs : List ℚ) (x : ℚ) :
    ((((runUpdates (MovingAverage.new N) xs).update x).2).isSome = true ↔ N ≤ xs.length + 1)
    ∧ (∀ m, ((runUpdates (MovingAverage.new N) xs).update x).2 = some m →
        m = (lastN N (xs ++ [x])).sum / (N : ℚ))
    ∧ (xs.length + 1 < N → ((runUpdates (MovingAverage.new N) xs).update x).2 = none)
    ∧ (∀ vals ys y,
        ((((runUpdates ((MovingAverage.new N).seed vals) ys).update y).2).isSome = true
          ↔ N ≤ min N vals.length + ys.length + 1)) := by
  have hrun : ((runUpdates (MovingAverage.new N) xs).update x).2
      = if N ≤ xs.length + 1 then some ((lastN N (xs ++ [x])).sum / (N : ℚ)) else none := by
    have := update_after_run N hN [] (by simp) xs x
    simpa using this
  refine ⟨?_, ?_, ?_, ?_⟩
  · rw [hrun]
    by_cases hcase : N ≤ xs.length + 1
    · simp [hcase]
    · simp [hcase]
  · intro m hm
    rw [hrun] at hm
    by_cases hcase : N ≤ xs.length + 1
    · rw [if_pos hcase] at hm
      exact (Option.some_injective _ hm).symm
    · rw [if_neg hcase] at hm
      exact absurd hm (Option.some_ne_none m).symm.elim
  · intro hlt
    rw [hrun, if_neg (by omega)]
  · intro vals ys y
    have hseed : (MovingAverage.new N).seed vals = ⟨vals.take N, N⟩ := rfl
    have htake : (vals.take N).length ≤ N := by
      rw [List.length_take]
      omega
    have := update_after_run N hN (vals.take N) htake ys y
    rw [hseed, this]
    have hlen : (vals.take N).length = min N vals.length := List.length_take N vals
    by_cases hcase : N ≤ (vals.take N).length + ys.length + 1
    · rw [if_pos hcase]
      simp only [Option.isSome_some, true_iff]
      omega
    · rw [if_neg hcase]
      simp only [Option.isSome_none, Bool.false_eq_true, false_iff]
      omega

/-- Witness for C2 (amended) at `N = 2`, pushes `[5]` then `7`: the update
returns a value because two observations have been pushed. -/
theorem C2_update_contract_witness :
    (1 ≤ 2) ∧
    ((((runUpdates (MovingAverage.new 2) [5]).update 7).2).isSome = true
      ↔ 2 ≤ ([5] : List ℚ).length + 1) :=
  ⟨by omega, (C2_update_contract 2 (by omega) [5] 7).1⟩

theorem evaluate_none_short (p : MaParams) (s : MaState) (price net now : ℚ)
    (shortMa : MovingAverage) (hshort : s.short_ma.update price = (shortMa, none)) :
    evaluate p s price net now = ({ s with short_ma := shortMa }, none) := by
  unfold evaluate
  rw [hshort]

theorem evaluate_none_long (p : MaParams) (s : MaState) (price net now : ℚ)
    (shortMa longMa : MovingAverage) (short : ℚ)
    (hshort : s.short_ma.update price = (shortMa, some short))
    (hlong : s.long_ma.update price = (longMa, none)) :
    evaluate p s price net now
      = ({ s with short_ma := shortMa, long_ma := longMa }, none) := by
  unfold evaluate
  rw [hshort, hlong]

theorem evaluate_none_same_target (p : MaParams) (s : MaState) (price net now : ℚ)
    (shortMa longMa : MovingAverage) (short long : ℚ)
    (hshort : s.short_ma.update price = (shortMa, some short))
    (hlong : s.long_ma.update price = (longMa, some long))
    (ht : targetSignal short long = s.last_signal
        ∨ targetSignal short long = SignalSide.Flat) :
    evaluate p s price net now
      = ({ s with short_ma := shortMa, long_ma := longMa }, none) := by
  unfold evaluate
  rw [hshort, hlong]
  simp only [if_pos ht]

theorem evaluate_none_rate_limited (p : MaParams) (s : MaState) (price net now : ℚ)
    (shortMa longMa : MovingAverage) (short long : ℚ) (rl : OrderRateLimiter)
    (hshort : s.short_ma.update price = (shortMa, some short))
    (hlong : s.long_ma.update price = (longMa, some long))
    (ht : ¬ (targetSignal short long = s.last_signal
        ∨ targetSignal short long = SignalSide.Flat))
    (hallow : s.rate_limiter.allow now = (rl, false)) :
    evaluate p s price net now
      = ({ s with short_ma := shortMa, long_ma := longMa, rate_limiter := rl }, none) := by
  unfold evaluate
  rw [hshort, hlong]
  simp only [if_neg ht]
  rw [hallow]

theorem evaluate_none_limits (p : MaParams) (s : MaState) (price net now : ℚ)
    (shortMa longMa : MovingAverage) (short long : ℚ) (rl : OrderRateLimiter)
    (hshort : s.short_ma.update price = (shortMa, some short))
    (hlong : s.long_ma.update price = (longMa, some long))
    (ht : ¬ (targetSignal short long = s.last_signal
        ∨ targetSignal short long = SignalSide.Flat))
    (hallow : s.rate_limiter.allow now = (rl, true))
    (hwl : within_limits p.max_position net
        (if targetSignal short long = SignalSide.Long then OrderSide.Buy else OrderSide.Sell)
        (reduce_only_for
          (if targetSignal short long = SignalSide.Long then OrderSide.Buy else OrderSide.Sell)
          net) = false) :
    evaluate p s price net now
      = ({ s with short_ma := shortMa, long_ma := longMa, rate_limiter := rl }, none) := by
  unfold evaluate
  rw [hshort, hlong]
  simp only [if_neg ht]
  rw [hallow]
  simp only [if_pos hwl]

theorem evaluate_emit (p : MaParams) (s : MaState) (price net now : ℚ)
    (shortMa longMa : MovingAverage) (short long : ℚ) (rl : OrderRateLimiter)
    (hshort : s.short_ma.update price = (shortMa, some short))
    (hlong : s.long_ma.update price = (longMa, some long))
    (ht : ¬ (targetSignal short long = s.last_signal
        ∨ targetSignal short long = SignalSide.Flat))
    (hallow : s.rate_limiter.allow now = (rl, true))
    (hwl : ¬ within_limits p.max_position net
        (if targetSignal short long = SignalSide.Long then OrderSide.Buy else OrderSide.Sell)
        (reduce_only_for
          (if targetSignal short long = SignalSide.Long then OrderSide.Buy else OrderSide.Sell)
          net) = false) :
    evaluate p s price net now
      = ({ s with
            short_ma := shortMa,
            long_ma := longMa,
            rate_limiter := rl,
            last_signal := targetSignal short long },
         some ⟨p.asset,
           (if targetSignal short long = SignalSide.Long then OrderSide.Buy
            else OrderSide.Sell),
           limit_price p.slippage_bps price
             (if targetSignal short long = SignalSide.Long then OrderSide.Buy
              else OrderSide.Sell),
           reduce_only_for
             (if targetSignal short long = SignalSide.Long then OrderSide.Buy
              else OrderSide.Sell) net⟩) := by
  unfold evaluate
  rw [hshort, hlong]
  simp only [if_neg ht]
  rw [hallow]
  simp only [if_neg hwl]

theorem reduce_only_iff (side : OrderSide) (net : ℚ) :
    reduce_only_for side net = true ↔
      ((side = OrderSide.Buy ∧ net < 0) ∨ (side = OrderSide.Sell ∧ 0 < net)) := by
  cases side <;> simp [reduce_only_for]

theorem within_limits_true (maxPos net : ℚ) (side : OrderSide)
    (h : within_limits maxPos net side false = true) :
    (side = OrderSide.Buy → net < maxPos) ∧ (side = OrderSide.Sell → -maxPos < net) := by
  cases side
  · refine ⟨fun _ => ?_, fun hc => by cases hc⟩
    simpa [within_limits] using h
  · refine ⟨(fun hc => by cases hc), fun _ => ?_⟩
    simpa [within_limits] using h

theorem evaluate_some_inv (p : MaParams) (s : MaState) (price net now : ℚ)
    (s' : MaState) (i : OrderIntent)
    (hm : evaluate p s price net now = (s', some i)) :
    ∃ short long shortMa longMa rl,
      s.short_ma.update price = (shortMa, some short) ∧
      s.long_ma.update price = (longMa, some long) ∧
      targetSignal short long ≠ s.last_signal ∧
      targetSignal short long ≠ SignalSide.Flat ∧
      s.rate_limiter.allow now = (rl, true) ∧
      i = ⟨p.asset,
        (if targetSignal short long = SignalSide.Long then OrderSide.Buy else OrderSide.Sell),
        limit_price p.slippage_bps price
          (if targetSignal short long = SignalSide.Long then OrderSide.Buy else OrderSide.Sell),
        reduce_only_for
          (if targetSignal short long = SignalSide.Long then OrderSide.Buy else OrderSide.Sell)
          net⟩ ∧
      within_limits p.max_position net i.side i.reduce_only = true := by
  rcases hshort : s.short_ma.update price with ⟨shortMa, sres⟩
  rcases sres with _ | short
  · rw [evaluate_none_short p s price net now shortMa hshort] at hm
    simp at hm
  · rcases hlong : s.long_ma.update price with ⟨longMa, lres⟩
    rcases lres with _ | long
    · rw [evaluate_none_long p s price net now shortMa longMa short hshort hlong] at hm
      simp at hm
    · by_cases ht : targetSignal short long = s.last_signal
          ∨ targetSignal short long = SignalSide.Flat
      · rw [evaluate_none_same_target p s price net now shortMa longMa short long
          hshort hlong ht] at hm
        simp at hm
      · rcases hallow : s.rate_limiter.allow now with ⟨rl, ok⟩
        rcases ok with _ | _
        · rw [evaluate_none_rate_limited p s price net now shortMa longMa short long rl
            hshort hlong ht hallow] at hm
          simp at hm
        · by_cases hwl : within_limits p.max_position net
              (if targetSignal short long = SignalSide.Long then OrderSide.Buy
               else OrderSide.Sell)
              (reduce_only_for
                (if targetSignal short long = SignalSide.Long then OrderSide.Buy
                 else OrderSide.Sell) net) = false
          · rw [evaluate_none_limits p s price net now shortMa longMa short long rl
              hshort hlong ht hallow hwl] at hm
            simp at hm
          · rw [evaluate_emit p s price net now shortMa longMa short long rl
              hshort hlong ht hallow hwl] at hm
            have hi : i = ⟨p.asset,
                (if targetSignal short long = SignalSide.Long then OrderSide.Buy
                 else OrderSide.Sell),
                limit_price p.slippage_bps price
                  (if targetSignal short long = SignalSide.Long then OrderSide.Buy
                   else OrderSide.Sell),
                reduce_only_for
                  (if targetSignal short long = SignalSide.Long then OrderSide.Buy
                   else OrderSide.Sell) net⟩ := by
              have h2 := congrArg Prod.snd hm
              simp only [Prod.snd] at h2
              exact (Option.some_injective _ h2).symm
            push_neg at ht
            refine ⟨short, long, shortMa, longMa, rl, rfl, rfl, ht.1, ht.2, rfl,
              hi, ?_⟩
            rw [hi]
            rcases hb : within_limits p.max_position net
                (if targetSignal short long = SignalSide.Long then OrderSide.Buy
                 else OrderSide.Sell)
                (reduce_only_for
                  (if targetSignal short long = SignalSide.Long then OrderSide.Buy
                   else OrderSide.Sell) net) with _ | _
            · exact absurd hb hwl
            · rfl

/-- C4: for every intent emitted by `evaluate`: `reduce_only` is true
exactly when the order would reduce an existing opposite-sign position
(Buy while net < 0, Sell while net > 0); an emitted non-reduce-only Buy
implies net < max_position and an emitted non-reduce-only Sell implies
net > -max_position; conversely, once the decision pipeline reaches the
cap check (both means available, a fresh non-Flat target, rate limit
granted), a would-be Buy that is not reduce-only with net at/above the cap
— or a would-be Sell that is not reduce-only with net at/below the
negative cap — yields no intent, while a reduce-only order is emitted
regardless of the cap. -/
theorem C4_reduce_only_and_cap (p : MaParams) (s : MaState) (price net now : ℚ) :
    (∀ s' i, evaluate p s price net now = (s', some i) →
      ((i.reduce_only = true ↔
          ((i.side = OrderSide.Buy ∧ net < 0) ∨ (i.side = OrderSide.Sell ∧ 0 < net))) ∧
        (i.reduce_only = false →
          (i.side = OrderSide.Buy → net < p.max_position) ∧
          (i.side = OrderSide.Sell → -p.max_position < net))))
    ∧ (∀ shortMa longMa short long rl,
        s.short_ma.update price = (shortMa, some short) →
        s.long_ma.update price = (longMa, some long) →
        targetSignal short long = SignalSide.Long →
        SignalSide.Long ≠ s.last_signal →
        s.rate_limiter.allow now = (rl, true) →
        ¬ net < 0 → p.max_position ≤ net →
        (evaluate p s price net now).2 = none)
    ∧ (∀ shortMa longMa short long rl,
        s.short_ma.update price = (shortMa, some short) →
        s.long_ma.update price = (longMa, some long) →
        targetSignal short long = SignalSide.Short →
        SignalSide.Short ≠ s.last_signal →
        s.rate_limiter.allow now = (rl, true) →
        ¬ 0 < net → net ≤ -p.max_position →
        (evaluate p s price net now).2 = none)
    ∧ (∀ shortMa longMa short long rl,
        s.short_ma.update price = (shortMa, some short) →
        s.long_ma.update price = (longMa, some long) →
        targetSignal short long ≠ s.last_signal →
        targetSignal short long ≠ SignalSide.Flat →
        s.rate_limiter.allow now = (rl, true) →
        reduce_only_for
          (if targetSignal short long = SignalSide.Long then OrderSide.Buy
           else OrderSide.Sell) net = true →
        ∃ i, (evaluate p s price net now).2 = some i ∧ i.reduce_only = true) := by
  refine ⟨?_, ?_, ?_, ?_⟩
  · intro s' i hm
    obtain ⟨short, long, shortMa, longMa, rl, hshort, hlong, ht1, ht2, hallow, hi, hwl⟩ :=
      evaluate_some_inv p s price net now s' i hm
    constructor
    · rw [hi]
      exact reduce_only_iff _ net
    · intro hro
      rw [hro] at hwl
      exact within_limits_true p.max_position net i.side hwl
  · intro shortMa longMa short long rl hshort hlong htL hne hallow hnn hcap
    have ht : ¬ (targetSignal short long = s.last_signal
        ∨ targetSignal short long = SignalSide.Flat) := by
      rw [htL]
      rintro (h | h)
      · exact hne h
      · cases h
    have hwl : within_limits p.max_position net
        (if targetSignal short long = SignalSide.Long then OrderSide.Buy
         else OrderSide.Sell)
        (reduce_only_for
          (if targetSignal short long = SignalSide.Long then OrderSide.Buy
           else OrderSide.Sell) net) = false := by
      rw [htL]
      simp [reduce_only_for, within_limits, hnn, not_lt.mpr hcap]
    rw [evaluate_none_limits p s price net now shortMa longMa short long rl
      hshort hlong ht hallow hwl]
  · intro shortMa longMa short long rl hshort hlong htS hne hallow hnp hcap
    have ht : ¬ (targetSignal short long = s.last_signal
        ∨ targetSignal short long = SignalSide.Flat) := by
      rw [htS]
      rintro (h | h)
      · exact hne h
      · cases h
    have hcap2 : ¬ (-p.max_position < net) := by
      intro hc
      linarith
    have hwl : within_limits p.max_position net
        (if targetSignal short long = SignalSide.Long then OrderSide.Buy
         else OrderSide.Sell)
        (reduce_only_for
          (if targetSignal short long = SignalSide.Long then OrderSide.Buy
           else OrderSide.Sell) net) = false := by
      rw [htS]
      simp [reduce_only_for, within_limits, hnp, hcap2]
    rw [evaluate_none_limits p s price net now shortMa longMa short long rl
      hshort hlong ht hallow hwl]
  · intro shortMa longMa short long rl hshort hlong hne hnf hallow hro
    have ht : ¬ (targetSignal short long = s.last_signal
        ∨ targetSignal short long = SignalSide.Flat) := by
      rintro (h | h)
      · exact hne h
      · exact hnf h
    have hwl : ¬ within_limits p.max_position net
        (if targetSignal short long = SignalSide.Long then OrderSide.Buy
         else OrderSide.Sell)
        (reduce_only_for
          (if targetSignal short long = SignalSide.Long then OrderSide.Buy
           else OrderSide.Sell) net) = false := by
      rw [hro]
      unfold within_limits
      simp
    rw [evaluate_emit p s price net now shortMa longMa short long rl
      hshort hlong ht hallow hwl]
    exact ⟨_, rfl, hro⟩

/-- Witness for C4 at a concrete input: cap 0, net 0, short mean 11 above
long mean 10, fresh non-Long state and a granting rate limiter — the Buy is
rejected by the cap and no intent is emitted. -/
theorem C4_reduce_only_and_cap_witness :
    (evaluate ⟨"X", 1, 2, 0, 0, 1⟩
      ⟨⟨[], 1⟩, ⟨[9], 2⟩, SignalSide.Flat, ⟨1, [], 60⟩⟩ 11 0 0).2 = none := by
  refine (C4_reduce_only_and_cap ⟨"X", 1, 2, 0, 0, 1⟩
      ⟨⟨[], 1⟩, ⟨[9], 2⟩, SignalSide.Flat, ⟨1, [], 60⟩⟩ 11 0 0).2.1
    ⟨[11], 1⟩ ⟨[9, 11], 2⟩ 11 10 ⟨1, [0], 60⟩ ?_ ?_ ?_ ?_ ?_ ?_ ?_
  · norm_num [MovingAverage.update, simple_moving_average,
      List.sum_cons, List.sum_nil]
  · norm_num [MovingAverage.update, simple_moving_average,
      List.sum_cons, List.sum_nil]
  · norm_num [targetSignal]
  · decide
  · norm_num [OrderRateLimiter.allow, durationSince, List.dropWhile]
  · norm_num
  · norm_num

/-- C5: (i) the target direction is Long iff the short mean strictly
exceeds the long mean, Short iff strictly below, Flat iff equal;
(ii) whenever both means are available and the target equals the current
state or is Flat, no intent is emitted and the last signal is unchanged —
equal means never trigger a transition and a persisting crossover is not
re-emitted; (iii) on the spec's concrete run (short window 2, long
window 3, closes 10,10,10,12,8,12 and then 3, net position 0 throughout)
exactly one Sell intent is emitted, with reduce_only = false, at the
short<long crossover; the state ends Short and the extra tick with
short<long persisting emits nothing. -/
theorem C5_target_and_crossover :
    (∀ short long : ℚ,
      (targetSignal short long = SignalSide.Long ↔ long < short) ∧
      (targetSignal short long = SignalSide.Short ↔ short < long) ∧
      (targetSignal short long = SignalSide.Flat ↔ short = long))
    ∧ (∀ (p : MaParams) (s : MaState) (price net now : ℚ)
          (shortMa longMa : MovingAverage) (short long : ℚ),
        s.short_ma.update price = (shortMa, some short) →
        s.long_ma.update price = (longMa, some long) →
        (targetSignal short long = s.last_signal
          ∨ targetSignal short long = SignalSide.Flat) →
        (evaluate p s price net now).2 = none ∧
          (evaluate p s price net now).1.last_signal = s.last_signal)
    ∧ ((evalTrace ⟨"X", 2, 3, 5, 1/20, 30⟩
          ⟨⟨[], 2⟩, ⟨[], 3⟩, SignalSide.Flat, ⟨30, [], 60⟩⟩
          [(10, 0, 0), (10, 0, 1), (10, 0, 2), (12, 0, 3), (8, 0, 4),
           (12, 0, 5), (3, 0, 6)]).2
        = [none, none, none,
           some ⟨"X", OrderSide.Buy, 12 * (1 + 5 / 10000), false⟩,
           none,
           some ⟨"X", OrderSide.Sell, 12 * (1 - 5 / 10000), false⟩,
           none]
      ∧ (evalTrace ⟨"X", 2, 3, 5, 1/20, 30⟩
          ⟨⟨[], 2⟩, ⟨[], 3⟩, SignalSide.Flat, ⟨30, [], 60⟩⟩
          [(10, 0, 0), (10, 0, 1), (10, 0, 2), (12, 0, 3), (8, 0, 4),
           (12, 0, 5), (3, 0, 6)]).1.last_signal = SignalSide.Short) := by
  refine ⟨?_, ?_, ?_⟩
  · intro short long
    rcases lt_trichotomy short long with h | h | h
    · simp [targetSignal, h, asymm h, ne_of_lt h]
    · simp [targetSignal, h]
    · simp [targetSignal, h, asymm h, ne_of_gt h]
  · intro p s price net now shortMa longMa short long hshort hlong ht
    rw [evaluate_none_same_target p s price net now shortMa longMa short long
      hshort hlong ht]
    exact ⟨rfl, rfl⟩
  · have e1 : evaluate ⟨"X", 2, 3, 5, 1/20, 30⟩
        ⟨⟨[], 2⟩, ⟨[], 3⟩, SignalSide.Flat, ⟨30, [], 60⟩⟩ 10 0 0
        = (⟨⟨[10], 2⟩, ⟨[], 3⟩, SignalSide.Flat, ⟨30, [], 60⟩⟩, none) := by
      norm_num [evaluate, MovingAverage.update, simple_moving_average]
    have e2 : evaluate ⟨"X", 2, 3, 5, 1/20, 30⟩
        ⟨⟨[10], 2⟩, ⟨[], 3⟩, SignalSide.Flat, ⟨30, [], 60⟩⟩ 10 0 1
        = (⟨⟨[10, 10], 2⟩, ⟨[10], 3⟩, SignalSide.Flat, ⟨30, [], 60⟩⟩, none) := by
      norm_num [evaluate, MovingAverage.update, simple_moving_average,
        List.sum_cons, List.sum_nil]
    have e3 : evaluate ⟨"X", 2, 3, 5, 1/20, 30⟩
        ⟨⟨[10, 10], 2⟩, ⟨[10], 3⟩, SignalSide.Flat, ⟨30, [], 60⟩⟩ 10 0 2
        = (⟨⟨[10, 10], 2⟩, ⟨[10, 10], 3⟩, SignalSide.Flat, ⟨30, [], 60⟩⟩, none) := by
      norm_num [evaluate, MovingAverage.update, simple_moving_average,
        List.sum_cons, List.sum_nil]
    have e4 : evaluate ⟨"X", 2, 3, 5, 1/20, 30⟩
        ⟨⟨[10, 10], 2⟩, ⟨[10, 10], 3⟩, SignalSide.Flat, ⟨30, [], 60⟩⟩ 12 0 3
        = (⟨⟨[10, 12], 2⟩, ⟨[10, 10, 12], 3⟩, SignalSide.Long, ⟨30, [3], 60⟩⟩,
           some ⟨"X", OrderSide.Buy, 12 * (1 + 5 / 10000), false⟩) := by
      norm_num [evaluate, MovingAverage.update, simple_moving_average,
        targetSignal, OrderRateLimiter.allow, durationSince, reduce_only_for,
        within_limits, limit_price, List.dropWhile, List.sum_cons, List.sum_nil,
        (by decide : ¬ SignalSide.Long = SignalSide.Flat)]
    have e5 : evaluate ⟨"X", 2, 3, 5, 1/20, 30⟩
        ⟨⟨[10, 12], 2⟩, ⟨[10, 10, 12], 3⟩, SignalSide.Long, ⟨30, [3], 60⟩⟩ 8 0 4
        = (⟨⟨[12, 8], 2⟩, ⟨[10, 12, 8], 3⟩, SignalSide.Long, ⟨30, [3], 60⟩⟩, none) := by
      norm_num [evaluate, MovingAverage.update, simple_moving_average,
        targetSignal, List.sum_cons, List.sum_nil]
    have e6 : evaluate ⟨"X", 2, 3, 5, 1/20, 30⟩
        ⟨⟨[12, 8], 2⟩, ⟨[10, 12, 8], 3⟩, SignalSide.Long, ⟨30, [3], 60⟩⟩ 12 0 5
        = (⟨⟨[8, 12], 2⟩, ⟨[12, 8, 12], 3⟩, SignalSide.Short, ⟨30, [3, 5], 60⟩⟩,
           some ⟨"X", OrderSide.Sell, 12 * (1 - 5 / 10000), false⟩) := by
      norm_num [evaluate, MovingAverage.update, simple_moving_average,
        targetSignal, OrderRateLimiter.allow, durationSince, reduce_only_for,
        within_limits, limit_price, List.dropWhile, List.sum_cons, List.sum_nil,
        (by decide : ¬ SignalSide.Short = SignalSide.Long),
        (by decide : ¬ SignalSide.Short = SignalSide.Flat)]
    have e7 : evaluate ⟨"X", 2, 3, 5, 1/20, 30⟩
        ⟨⟨[8, 12], 2⟩, ⟨[12, 8, 12], 3⟩, SignalSide.Short, ⟨30, [3, 5], 60⟩⟩ 3 0 6
        = (⟨⟨[12, 3], 2⟩, ⟨[8, 12, 3], 3⟩, SignalSide.Short, ⟨30, [3, 5], 60⟩⟩,
           none) := by
      norm_num [evaluate, MovingAverage.update, simple_moving_average,
        targetSignal, List.sum_cons, List.sum_nil]
    constructor
    · simp only [evalTrace, List.foldl_cons, List.foldl_nil, e1, e2, e3, e4, e5, e6, e7,
        List.nil_append, List.cons_append, List.singleton_append]
    · simp only [evalTrace, List.foldl_cons, List.foldl_nil, e1, e2, e3, e4, e5, e6, e7]

/-- Witness for C5 at a concrete input: equal means (short = long = 5)
yield a Flat target, so no intent is emitted and the state is unchanged. -/
theorem C5_target_and_crossover_witness :
    (evaluate ⟨"X", 1, 2, 0, 1, 1⟩
        ⟨⟨[], 1⟩, ⟨[5], 2⟩, SignalSide.Flat, ⟨1, [], 60⟩⟩ 5 0 0).2 = none ∧
    (evaluate ⟨"X", 1, 2, 0, 1, 1⟩
        ⟨⟨[], 1⟩, ⟨[5], 2⟩, SignalSide.Flat, ⟨1, [], 60⟩⟩ 5 0 0).1.last_signal
      = SignalSide.Flat :=
  C5_target_and_crossover.2.1 ⟨"X", 1, 2, 0, 1, 1⟩
    ⟨⟨[], 1⟩, ⟨[5], 2⟩, SignalSide.Flat, ⟨1, [], 60⟩⟩ 5 0 0
    ⟨[5], 1⟩ ⟨[5, 5], 2⟩ 5 5
    (by norm_num [MovingAverage.update, simple_moving_average,
      List.sum_cons, List.sum_nil])
    (by norm_num [MovingAverage.update, simple_moving_average,
      List.sum_cons, List.sum_nil])
    (Or.inr (by norm_num [targetSignal]))

/-- C6: `Engine::handle_fill` applies the fill to the ledger before the
strategy's `on_fill` handler runs, and the handler resynchronizes the
strategy's signal from the post-fill net position of its instrument: Long
if net > 0, Short if net < 0, Flat if net = 0.  In particular a sell fill
on the strategy's instrument whose size exactly equals the current net
position drives the state to Flat regardless of the previous signal. -/
theorem C6_fill_applied_before_sync (pm : List Position) (s : MaState)
    (asset : String) (fill : FillEvent) :
    (engineHandleFill pm s asset fill).1 = applyFill pm fill ∧
    (engineHandleFill pm s asset fill).2.last_signal
      = signalFromNet (netPosition (applyFill pm fill) asset) ∧
    (0 < netPosition (applyFill pm fill) asset →
      (engineHandleFill pm s asset fill).2.last_signal = SignalSide.Long) ∧
    (netPosition (applyFill pm fill) asset < 0 →
      (engineHandleFill pm s asset fill).2.last_signal = SignalSide.Short) ∧
    (netPosition (applyFill pm fill) asset = 0 →
      (engineHandleFill pm s asset fill).2.last_signal = SignalSide.Flat) ∧
    (fill.asset = asset → fill.is_buy = false → fill.size = netPosition pm asset →
      (engineHandleFill pm s asset fill).2.last_signal = SignalSide.Flat) := by
  have hbase : (engineHandleFill pm s asset fill).2.last_signal
      = signalFromNet (netPosition (applyFill pm fill) asset) := rfl
  refine ⟨rfl, hbase, ?_, ?_, ?_, ?_⟩
  · intro h
    rw [hbase]
    simp [signalFromNet, h]
  · intro h
    rw [hbase]
    simp [signalFromNet, h, asymm h]
  · intro h
    rw [hbase]
    simp [signalFromNet, h]
  · intro ha hb hs
    have h0 : netPosition (applyFill pm fill) asset = 0 := by
      rw [netPosition_applyFill, if_pos ha]
      unfold fillSigned
      rw [hb]
      simp only [Bool.false_eq_true, if_false]
      linarith
    rw [hbase]
    simp [signalFromNet, h0]

/-- Witness for C6 at a concrete input: a long position of size 1 fully
offset by a sell fill of size 1 drives the signal to Flat even though the
previous signal was Long. -/
theorem C6_fill_applied_before_sync_witness :
    (engineHandleFill [⟨"X", 1, 10⟩]
        ⟨⟨[], 1⟩, ⟨[], 2⟩, SignalSide.Long, ⟨1, [], 60⟩⟩ "X"
        ⟨"X", 9, 1, false⟩).2.last_signal = SignalSide.Flat :=
  (C6_fill_applied_before_sync [⟨"X", 1, 10⟩]
      ⟨⟨[], 1⟩, ⟨[], 2⟩, SignalSide.Long, ⟨1, [], 60⟩⟩ "X"
      ⟨"X", 9, 1, false⟩).2.2.2.2.2 rfl rfl
    (by norm_num [netPosition, List.find?])

/-- C3 counterexample: the snapshot does not persist the rate limiter's
recorded timestamps.  With `max_order_rate_per_min = 1`, run the strategy
from its fresh state through two events (the second emits a Buy and records
a rate-limiter timestamp), snapshot, and load into a fresh strategy.  On
the identical next event (price 5 at time 2, net 0) the original emits
nothing (rate-limited) while the restarted strategy emits a Sell — the
claimed identical future behaviour fails. -/
theorem C3_counterexample :
    (evaluate ⟨"X", 1, 2, 0, 1, 1⟩
        (evalTrace ⟨"X", 1, 2, 0, 1, 1⟩ (freshState ⟨"X", 1, 2, 0, 1, 1⟩)
          [(10, 0, 0), (20, 0, 1)]).1 5 0 2).2 = none ∧
    (evaluate ⟨"X", 1, 2, 0, 1, 1⟩
        (loadFresh ⟨"X", 1, 2, 0, 1, 1⟩
          (build_snapshot
            (evalTrace ⟨"X", 1, 2, 0, 1, 1⟩ (freshState ⟨"X", 1, 2, 0, 1, 1⟩)
              [(10, 0, 0), (20, 0, 1)]).1)) 5 0 2).2
      = some ⟨"X", OrderSide.Sell, 5 * (1 - 0 / 10000), false⟩ ∧
    (none : Option OrderIntent) ≠ some ⟨"X", OrderSide.Sell, 5 * (1 - 0 / 10000), false⟩ := by
  have eA : evaluate ⟨"X", 1, 2, 0, 1, 1⟩ (freshState ⟨"X", 1, 2, 0, 1, 1⟩) 10 0 0
      = (⟨⟨[10], 1⟩, ⟨[10], 2⟩, SignalSide.Flat, ⟨1, [], 60⟩⟩, none) := by
    norm_num [freshState, MovingAverage.new, OrderRateLimiter.new, evaluate,
      MovingAverage.update, simple_moving_average, List.sum_cons, List.sum_nil]
  have eB : evaluate ⟨"X", 1, 2, 0, 1, 1⟩
      ⟨⟨[10], 1⟩, ⟨[10], 2⟩, SignalSide.Flat, ⟨1, [], 60⟩⟩ 20 0 1
      = (⟨⟨[20], 1⟩, ⟨[10, 20], 2⟩, SignalSide.Long, ⟨1, [1], 60⟩⟩,
         some ⟨"X", OrderSide.Buy, 20 * (1 + 0 / 10000), false⟩) := by
    norm_num [evaluate, MovingAverage.update, simple_moving_average, targetSignal,
      OrderRateLimiter.allow, durationSince, reduce_only_for, within_limits,
      limit_price, List.dropWhile, List.sum_cons, List.sum_nil,
      (by decide : ¬ SignalSide.Long = SignalSide.Flat)]
  have htr : (evalTrace ⟨"X", 1, 2, 0, 1, 1⟩ (freshState ⟨"X", 1, 2, 0, 1, 1⟩)
        [(10, 0, 0), (20, 0, 1)]).1
      = ⟨⟨[20], 1⟩, ⟨[10, 20], 2⟩, SignalSide.Long, ⟨1, [1], 60⟩⟩ := by
    simp only [evalTrace, List.foldl_cons, List.foldl_nil, eA, eB]
  have hload : loadFresh ⟨"X", 1, 2, 0, 1, 1⟩
      (build_snapshot
        (⟨⟨[20], 1⟩, ⟨[10, 20], 2⟩, SignalSide.Long, ⟨1, [1], 60⟩⟩ : MaState))
      = ⟨⟨[20], 1⟩, ⟨[10, 20], 2⟩, SignalSide.Long, ⟨1, [], 60⟩⟩ := by
    norm_num [loadFresh, build_snapshot, restore_from_snapshot, freshState,
      MovingAverage.new, MovingAverage.seed, MovingAverage.values,
      OrderRateLimiter.new, List.take]
  refine ⟨?_, ?_, by simp⟩
  · rw [htr]
    norm_num [evaluate, MovingAverage.update, simple_moving_average, targetSignal,
      OrderRateLimiter.allow, durationSince, List.dropWhile,
      List.sum_cons, List.sum_nil,
      (by decide : ¬ SignalSide.Short = SignalSide.Long),
      (by decide : ¬ SignalSide.Short = SignalSide.Flat)]
  · rw [htr, hload]
    norm_num [evaluate, MovingAverage.update, simple_moving_average, targetSignal,
      OrderRateLimiter.allow, durationSince, reduce_only_for, within_limits,
      limit_price, List.dropWhile, List.sum_cons, List.sum_nil,
      (by decide : ¬ SignalSide.Short = SignalSide.Long),
      (by decide : ¬ SignalSide.Short = SignalSide.Flat)]

/-- C3 (amended): the snapshot round trip exactly reproduces the indicator
windows and the last signal — for any state whose window lengths fit the
configured periods (true of every state the strategy can build) — but NOT
the rate limiter's recorded timestamps, which restart empty.  Hence a
freshly loaded strategy reproduces the original's future decisions exactly
whenever the original's rate limiter window is empty at snapshot time; when
order timestamps are pending, decisions can diverge (see the
counterexample). -/
theorem C3_snapshot_roundtrip (p : MaParams) (s : MaState)
    (hsw : s.short_ma.window.length ≤ p.short_window)
    (hlw : s.long_ma.window.length ≤ p.long_window)
    (hsp : s.short_ma.period = p.short_window)
    (hlp : s.long_ma.period = p.long_window)
    (hrlm : s.rate_limiter.max_per_minute = max p.max_order_rate_per_min 1)
    (hrlw : s.rate_limiter.window = 60)
    (hrlt : s.rate_limiter.timestamps = []) :
    loadFresh p (build_snapshot s) = s ∧
    ∀ events, evalTrace p (loadFresh p (build_snapshot s)) events = evalTrace p s events := by
  have hmain : loadFresh p (build_snapshot s) = s := by
    rcases s with ⟨⟨sw, sp⟩, ⟨lw, lp⟩, sig, ⟨m, ts, w⟩⟩
    simp only at hsw hlw hsp hlp hrlm hrlw hrlt
    subst hsp
    subst hlp
    subst hrlm
    subst hrlw
    subst hrlt
    unfold loadFresh restore_from_snapshot freshState build_snapshot
      MovingAverage.new MovingAverage.seed MovingAverage.values OrderRateLimiter.new
    simp only [MaState.mk.injEq, MovingAverage.mk.injEq, OrderRateLimiter.mk.injEq]
    norm_num [List.take_of_length_le hsw, List.take_of_length_le hlw]
  exact ⟨hmain, fun events => by rw [hmain]⟩

/-- Witness for C3 (amended) at a concrete state with an empty rate-limiter
window: the round trip reproduces the state exactly. -/
theorem C3_snapshot_roundtrip_witness :
    loadFresh ⟨"X", 1, 2, 0, 1, 1⟩
        (build_snapshot ⟨⟨[7], 1⟩, ⟨[7, 8], 2⟩, SignalSide.Long, ⟨1, [], 60⟩⟩)
      = ⟨⟨[7], 1⟩, ⟨[7, 8], 2⟩, SignalSide.Long, ⟨1, [], 60⟩⟩ :=
  (C3_snapshot_roundtrip ⟨"X", 1, 2, 0, 1, 1⟩
    ⟨⟨[7], 1⟩, ⟨[7, 8], 2⟩, SignalSide.Long, ⟨1, [], 60⟩⟩
    (by decide) (by decide) rfl rfl (by decide) rfl rfl).1

theorem stale_iff (W now t : ℚ) (hW : 0 ≤ W) :
    W < durationSince now t ↔ ¬ (now - t ≤ W) := by
  unfold durationSince
  rw [lt_max_iff]
  constructor
  · rintro (h | h)
    · exact not_le.mpr h
    · exact absurd hW (not_le.mpr h)
  · intro h
    exact Or.inl (not_le.mp h)

theorem dropWhile_stale_eq_filter (W now : ℚ) (hW : 0 ≤ W) :
    ∀ l : List ℚ, l.Sorted (· ≤ ·) →
      l.dropWhile (fun ts => W < durationSince now ts)
        = l.filter (fun ts => now - ts ≤ W) := by
  intro l
  induction l with
  | nil => intro _; rfl
  | cons t rest ih =>
    intro hsort
    have hall : ∀ b ∈ rest, t ≤ b := List.rel_of_sorted_cons hsort
    have hrest : rest.Sorted (· ≤ ·) := hsort.of_cons
    by_cases hst : W < durationSince now t
    · have hb1 : decide (W < durationSince now t) = true := decide_eq_true hst
      have hb2 : decide (now - t ≤ W) = false :=
        decide_eq_false ((stale_iff W now t hW).mp hst)
      simp only [List.dropWhile_cons, List.filter_cons, hb1, hb2, if_true,
        Bool.false_eq_true, if_false]
      exact ih hrest
    · have hb1 : decide (W < durationSince now t) = false := decide_eq_false hst
      have hle : now - t ≤ W := by
        by_contra hc
        exact hst ((stale_iff W now t hW).mpr hc)
      have hb2 : decide (now - t ≤ W) = true := decide_eq_true hle
      have hfr : rest.filter (fun ts => decide (now - ts ≤ W)) = rest := by
        rw [List.filter_eq_self]
        intro x hx
        exact decide_eq_true (by linarith [hall x hx])
      simp only [List.dropWhile_cons, List.filter_cons, hb1, hb2, if_true,
        Bool.false_eq_true, if_false, hfr]

theorem allow_spec (M : ℕ) (ts : List ℚ) (W now : ℚ) (hW : 0 ≤ W)
    (hsort : ts.Sorted (· ≤ ·)) :
    (OrderRateLimiter.mk M ts W).allow now
      = (if M ≤ (ts.filter (fun t => decide (now - t ≤ W))).length
         then (⟨M, ts.filter (fun t => decide (now - t ≤ W)), W⟩, false)
         else (⟨M, ts.filter (fun t => decide (now - t ≤ W)) ++ [now], W⟩, true)) := by
  simp only [OrderRateLimiter.allow]
  rw [dropWhile_stale_eq_filter W now hW ts hsort]

theorem rl_fold_bound (W : ℚ) (hW : 0 ≤ W) (M : ℕ) :
    ∀ (calls : List ℚ) (bound : ℚ) (adm : List ℚ),
      (bound :: calls).Chain' (· ≤ ·) →
      adm.Sorted (· ≤ ·) →
      (∀ t ∈ adm, t ≤ bound) →
      (∀ a : ℚ, (adm.filter (fun t => decide (a ≤ t ∧ t ≤ a + W))).length ≤ M) →
      ∀ a : ℚ,
        (((calls.foldl rlStep
            (⟨M, adm.filter (fun t => decide (bound - t ≤ W)), W⟩, adm)).2).filter
          (fun t => decide (a ≤ t ∧ t ≤ a + W))).length ≤ M := by
  intro calls
  induction calls with
  | nil =>
    intro bound adm _ _ _ hbound a
    simpa using hbound a
  | cons c rest ih =>
    intro bound adm hchain hsort hle hbound a
    have hbc : bound ≤ c := (List.chain'_cons.mp hchain).1
    have hchain2 : (c :: rest).Chain' (· ≤ ·) := (List.chain'_cons.mp hchain).2
    have hsortts : (adm.filter (fun t => decide (bound - t ≤ W))).Sorted (· ≤ ·) :=
      hsort.filter _
    have hfun : (fun x : ℚ => decide (x ≤ c) && true) = (fun x : ℚ => decide (x ≤ c)) := by
      funext x
      simp
    have hkept : (adm.filter (fun t => decide (bound - t ≤ W))).filter
        (fun t => decide (c - t ≤ W))
        = adm.filter (fun t => decide (c - t ≤ W)) := by
      rw [List.filter_filter]
      have hfun2 : ∀ x : ℚ,
          (decide (c - x ≤ W) && decide (bound - x ≤ W)) = decide (c - x ≤ W) := by
        intro x
        by_cases hx : c - x ≤ W
        · have hx2 : bound - x ≤ W := by linarith
          simp [hx, hx2]
        · simp [hx]
      exact List.filter_congr (fun x _ => hfun2 x)
    have hall := allow_spec M (adm.filter (fun t => decide (bound - t ≤ W))) W c hW hsortts
    rw [hkept] at hall
    by_cases hM : M ≤ (adm.filter (fun t => decide (c - t ≤ W))).length
    · have hstep : rlStep (⟨M, adm.filter (fun t => decide (bound - t ≤ W)), W⟩, adm) c
          = (⟨M, adm.filter (fun t => decide (c - t ≤ W)), W⟩, adm) := by
        unfold rlStep
        rw [hall, if_pos hM]
        simp
      rw [List.foldl_cons, hstep]
      exact ih c adm hchain2 hsort (fun t ht => le_trans (hle t ht) hbc) hbound a
    · have hstep : rlStep (⟨M, adm.filter (fun t => decide (bound - t ≤ W)), W⟩, adm) c
          = (⟨M, adm.filter (fun t => decide (c - t ≤ W)) ++ [c], W⟩, adm ++ [c]) := by
        unfold rlStep
        rw [hall, if_neg hM]
        simp
      rw [List.foldl_cons, hstep]
      have hsort2 : (adm ++ [c]).Sorted (· ≤ ·) := by
        rw [List.Sorted, List.pairwise_append]
        refine ⟨hsort, List.pairwise_singleton _ _, ?_⟩
        intro x hx y hy
        rw [List.mem_singleton] at hy
        subst hy
        exact le_trans (hle x hx) hbc
      have hle2 : ∀ t ∈ adm ++ [c], t ≤ c := by
        intro t ht
        rcases List.mem_append.mp ht with h | h
        · exact le_trans (hle t h) hbc
        · rw [List.mem_singleton] at h
          exact le_of_eq h
      have hbound2 : ∀ a' : ℚ, ((adm ++ [c]).filter
          (fun t => decide (a' ≤ t ∧ t ≤ a' + W))).length ≤ M := by
        intro a'
        rw [List.filter_append]
        by_cases hc : a' ≤ c ∧ c ≤ a' + W
        · have hcl : ([c].filter (fun t => decide (a' ≤ t ∧ t ≤ a' + W))) = [c] := by
            simp [hc]
          rw [hcl, List.length_append, List.length_singleton]
          have hsub : (adm.filter (fun t => decide (a' ≤ t ∧ t ≤ a' + W))).length
              ≤ (adm.filter (fun t => decide (c - t ≤ W))).length := by
            refine (List.monotone_filter_right adm ?_).length_le
            intro x hx
            have hx2 := of_decide_eq_true hx
            exact decide_eq_true (by
              obtain ⟨h1, h2⟩ := hx2
              obtain ⟨h3, h4⟩ := hc
              linarith)
          omega
        · have hcl : ([c].filter (fun t => decide (a' ≤ t ∧ t ≤ a' + W))) = [] := by
            simp only [List.filter_cons, List.filter_nil]
            rw [if_neg (by simpa using hc)]
          rw [hcl, List.append_nil]
          exact hbound a'
      have hgoal := ih c (adm ++ [c]) hchain2 hsort2 hle2 hbound2 a
      have hfNew : (adm ++ [c]).filter (fun t => decide (c - t ≤ W))
          = adm.filter (fun t => decide (c - t ≤ W)) ++ [c] := by
        rw [List.filter_append]
        congr 1
        simp only [List.filter_cons, List.filter_nil]
        rw [if_pos (decide_eq_true (by linarith : c - c ≤ W))]
      rw [hfNew] at hgoal
      exact hgoal

/-- C7: on the sorted timestamp lists produced by a monotone clock
(Rust's `Instant::now` is monotone), `allow` first evicts exactly the
timestamps strictly older than the window, then records the current
timestamp and returns true iff the remaining count is below the
configured maximum (returning false without recording otherwise); and for
every monotone call-time sequence, at most `max` calls are admitted within
any closed sliding window `[a, a + W]` of the configured duration — bursts
exactly at the window boundary count against the same window because a
timestamp exactly `W` old is not evicted. -/
theorem C7_rate_limiter_sliding_window (W : ℚ) (hW : 0 ≤ W) (M : ℕ) :
    (∀ (ts : List ℚ) (now : ℚ), ts.Sorted (· ≤ ·) →
      (OrderRateLimiter.mk M ts W).allow now
        = (if M ≤ (ts.filter (fun t => decide (now - t ≤ W))).length
           then (⟨M, ts.filter (fun t => decide (now - t ≤ W)), W⟩, false)
           else (⟨M, ts.filter (fun t => decide (now - t ≤ W)) ++ [now], W⟩, true)))
    ∧ (∀ calls : List ℚ, calls.Chain' (· ≤ ·) → ∀ a : ℚ,
        (((runLimiter ⟨M, [], W⟩ calls).2).filter
          (fun t => decide (a ≤ t ∧ t ≤ a + W))).length ≤ M) := by
  constructor
  · intro ts now hsort
    exact allow_spec M ts W now hW hsort
  · intro calls hchain a
    cases calls with
    | nil => simp [runLimiter]
    | cons c rest =>
      have hch : (c :: c :: rest).Chain' (· ≤ ·) :=
        List.chain'_cons.mpr ⟨le_refl c, hchain⟩
      exact rl_fold_bound W hW M (c :: rest) c [] hch (by simp) (by simp) (by simp) a

/-- Witness for C7 at a concrete burst: window 60, max 2, calls at times
0, 10, 20, 70 — the call at 20 is denied, and the sliding window [10, 70]
(whose boundaries carry admitted calls at exactly 10 and 70) holds at most
2 admitted calls. -/
theorem C7_rate_limiter_sliding_window_witness :
    (0 : ℚ) ≤ 60 ∧
    (((runLimiter ⟨2, [], 60⟩ [0, 10, 20, 70]).2).filter
      (fun t => decide ((10 : ℚ) ≤ t ∧ t ≤ 10 + 60))).length ≤ 2 :=
  ⟨by norm_num,
    (C7_rate_limiter_sliding_window 60 (by norm_num) 2).2 [0, 10, 20, 70]
      (by norm_num [List.chain'_cons, List.chain'_singleton]) 10⟩

/-- C9 counterexample: a single market event whose strategy handler fails
(for example, the historical bootstrap fetch errors) terminates the run,
although the market stream never closed and intent submission never
returned an error — so "terminates only when the market stream closes or
intent submission returns an unrecoverable error" is too narrow for this
code. -/
theorem C9_counterexample :
    engineRun true [StepInput.market HandlerOutcome.strategyErr] = RunOutcome.err ∧
    StepInput.market HandlerOutcome.strategyErr ≠ StepInput.marketClosed ∧
    StepInput.market HandlerOutcome.strategyErr
      ≠ StepInput.market HandlerOutcome.submitErr := by
  decide

/-- C9 (amended): the loop stops cleanly exactly on market-stream closure,
and stops with an error exactly on handler errors — strategy handler
errors (bootstrap fetch, persistence) as well as intent-submission errors;
fill-channel closure never terminates the loop but drops the fill arm
(fillsOpen becomes false) for the remainder of the run, and once dropped
the fill arm is never re-enabled; a trace free of terminating inputs
leaves the loop running. -/
theorem C9_run_loop_termination :
    (∀ (b : Bool) (i : StepInput),
      engineStep b i = StepResult.stopOk ↔ i = StepInput.marketClosed) ∧
    (∀ (b : Bool) (i : StepInput),
      engineStep b i = StepResult.stopErr ↔
        (i = StepInput.market HandlerOutcome.strategyErr ∨
         i = StepInput.market HandlerOutcome.submitErr ∨
         i = StepInput.fill HandlerOutcome.strategyErr ∨
         i = StepInput.fill HandlerOutcome.submitErr)) ∧
    (∀ b : Bool, engineStep b StepInput.fillClosed = StepResult.next false) ∧
    (∀ i : StepInput, engineStep false i ≠ StepResult.next true) ∧
    (∀ (trace : List StepInput) (b : Bool),
      (∀ i ∈ trace, isTerminating i = false) →
      ∃ b2 : Bool, engineRun b trace = RunOutcome.running b2) := by
  refine ⟨?_, ?_, ?_, ?_, ?_⟩
  · intro b i
    cases i with
    | market o => cases o <;> simp [engineStep]
    | marketLagged => simp [engineStep]
    | marketClosed => simp [engineStep]
    | fill o => cases o <;> simp [engineStep]
    | fillClosed => simp [engineStep]
  · intro b i
    cases i with
    | market o => cases o <;> simp [engineStep]
    | marketLagged => simp [engineStep]
    | marketClosed => simp [engineStep]
    | fill o => cases o <;> simp [engineStep]
    | fillClosed => simp [engineStep]
  · intro b
    rfl
  · intro i
    cases i with
    | market o => cases o <;> simp [engineStep]
    | marketLagged => simp [engineStep]
    | marketClosed => simp [engineStep]
    | fill o => cases o <;> simp [engineStep]
    | fillClosed => simp [engineStep]
  · intro trace
    induction trace with
    | nil =>
      intro b _
      exact ⟨b, rfl⟩
    | cons i rest ih =>
      intro b hall
      have hi : isTerminating i = false := hall i (List.mem_cons_self i rest)
      have hrest : ∀ j ∈ rest, isTerminating j = false :=
        fun j hj => hall j (List.mem_cons_of_mem i hj)
      cases i with
      | market o =>
        cases o with
        | ok => exact ih b hrest
        | strategyErr => simp [isTerminating] at hi
        | submitErr => simp [isTerminating] at hi
      | marketLagged => exact ih b hrest
      | marketClosed => simp [isTerminating] at hi
      | fill o =>
        cases o with
        | ok => exact ih b hrest
        | strategyErr => simp [isTerminating] at hi
        | submitErr => simp [isTerminating] at hi
      | fillClosed => exact ih false hrest

/-- Witness for C9 (amended): a fill-channel closure followed by a lag
signal leaves the loop running (in market-only mode). -/
theorem C9_run_loop_termination_witness :
    ∃ b2 : Bool, engineRun true [StepInput.fillClosed, StepInput.marketLagged]
      = RunOutcome.running b2 :=
  C9_run_loop_termination.2.2.2.2 [StepInput.fillClosed, StepInput.marketLagged] true
    (by decide)

/-- C10: the engine-level `RiskLimits::allow` returns `true` for every
order intent and every configured `max_position` value — the dedicated
risk-limit check never rejects an intent. -/
theorem C10_risk_limits_allow_always_true (r : RiskLimits) (i : OrderIntent) :
    r.allow i = true := rfl
